import Mathlib

/-!
Shallow embedding of `src/class_attack.py` (repository `umassos/private-ondevice-ml`).

The script runs four parameter sweeps over a trained classifier.  Every sweep
computes the same consistency score from a prediction frame `df_pred` holding one
row per query row, with an `index` column (the original row identity) and a
`pred` column (the predicted class label):

  `df_pred['pred'].groupby(index).nunique().mean() / 6 * 100`

We model the prediction frame as a `List (ℤ × ℤ)` of (identity, label) pairs and
translate the pandas pipeline step by step.  Randomness (the uniform noise
written into the feature columns) only influences the label values, so results
are stated for arbitrary prediction frames.
-/

set_option maxHeartbeats 1000000

namespace ClassAttack

/-- `np.mean` / `pandas.Series.mean` on a list of rationals: sum divided by
length.  (On the empty list pandas yields NaN; we keep the junk value `0` and
state theorems with a non-emptiness hypothesis wherever it matters.) -/
def npMean (xs : List ℚ) : ℚ := xs.sum / xs.length

/-- The distinct group keys produced by `groupby(index)`: the distinct values
of the first (identity) component. -/
def identsOf (rows : List (ℤ × ℤ)) : List ℤ := (rows.map Prod.fst).dedup

/-- The `pred` column restricted to the group of key `i`: labels of all rows
whose identity equals `i`. -/
def groupLabels (rows : List (ℤ × ℤ)) (i : ℤ) : List ℤ :=
  (rows.filter (fun r => r.1 == i)).map Prod.snd

/-- `nunique()` of the group with key `i`: the number of distinct labels in it. -/
def nuniqueOf (rows : List (ℤ × ℤ)) (i : ℤ) : ℕ := (groupLabels rows i).dedup.length

/-- `attack_acc = df_pred['pred'].groupby(index).nunique().mean() / 6 * 100`
(src/class_attack.py lines 28, 45, 82, 110, 133, 171 all use this expression). -/
def attack_acc (rows : List (ℤ × ℤ)) : ℚ :=
  npMean ((identsOf rows).map (fun i => (nuniqueOf rows i : ℚ))) / 6 * 100

/-- The label alphabet of the 6-class HAR classifier. -/
def classLabels : Finset ℤ := {0, 1, 2, 3, 4, 5}

lemma mem_identsOf {rows : List (ℤ × ℤ)} {i : ℤ} :
    i ∈ identsOf rows ↔ ∃ r ∈ rows, r.1 = i := by
  simp [identsOf, List.mem_dedup]

lemma identsOf_ne_nil {rows : List (ℤ × ℤ)} (hne : rows ≠ []) :
    identsOf rows ≠ [] := by
  obtain ⟨r, rs, rfl⟩ := List.exists_cons_of_ne_nil hne
  have : r.1 ∈ identsOf (r :: rs) := mem_identsOf.mpr ⟨r, List.mem_cons_self r rs, rfl⟩
  exact List.ne_nil_of_mem this

lemma one_le_nuniqueOf {rows : List (ℤ × ℤ)} {i : ℤ} (h : i ∈ identsOf rows) :
    1 ≤ nuniqueOf rows i := by
  obtain ⟨r, hr, hri⟩ := mem_identsOf.mp h
  have hrf : r ∈ rows.filter (fun r => r.1 == i) := by
    simp [List.mem_filter, hr, hri]
  have : r.2 ∈ groupLabels rows i := List.mem_map_of_mem Prod.snd hrf
  have : r.2 ∈ (groupLabels rows i).dedup := List.mem_dedup.mpr this
  have hlen : 0 < (groupLabels rows i).dedup.length :=
    List.length_pos.mpr (List.ne_nil_of_mem this)
  exact hlen

lemma nuniqueOf_le_card {rows : List (ℤ × ℤ)} {i : ℤ}
    (hlab : ∀ r ∈ rows, r.2 ∈ classLabels) :
    nuniqueOf rows i ≤ 6 := by
  have hsub : (groupLabels rows i).toFinset ⊆ classLabels := by
    intro x hx
    rw [List.mem_toFinset] at hx
    obtain ⟨r, hr, rfl⟩ := List.mem_map.mp hx
    exact hlab r (List.mem_of_mem_filter hr)
  have hcard : (groupLabels rows i).toFinset.card ≤ classLabels.card :=
    Finset.card_le_card hsub
  rw [List.card_toFinset] at hcard
  have : classLabels.card = 6 := by decide
  rw [this] at hcard
  exact hcard

lemma le_npMean_of_forall_le {xs : List ℚ} {a : ℚ} (hne : xs ≠ [])
    (h : ∀ x ∈ xs, a ≤ x) : a ≤ npMean xs := by
  have hlen : 0 < (xs.length : ℚ) := by
    have := List.length_pos.mpr hne
    exact_mod_cast this
  have hsum : (xs.length : ℚ) * a ≤ xs.sum := by
    have := List.card_nsmul_le_sum xs a h
    simpa [nsmul_eq_mul] using this
  rw [npMean, le_div_iff₀ hlen]
  linarith [hsum]

lemma npMean_le_of_forall_le {xs : List ℚ} {b : ℚ} (hne : xs ≠ [])
    (h : ∀ x ∈ xs, x ≤ b) : npMean xs ≤ b := by
  have hlen : 0 < (xs.length : ℚ) := by
    have := List.length_pos.mpr hne
    exact_mod_cast this
  have hsum : xs.sum ≤ (xs.length : ℚ) * b := by
    have := List.sum_le_card_nsmul xs b h
    simpa [nsmul_eq_mul] using this
  rw [npMean, div_le_iff₀ hlen]
  linarith [hsum]

/-- C1: the recorded score of every sweep is
`mean over identity groups of the distinct-label count, divided by 6, times
100`, and whenever the prediction frame is non-empty and every predicted label
is one of the 6 classes, that score lies in `[0, 100]`. -/
theorem attack_acc_formula_and_bounds (rows : List (ℤ × ℤ)) (hne : rows ≠ [])
    (hlab : ∀ r ∈ rows, r.2 ∈ classLabels) :
    attack_acc rows
        = npMean ((identsOf rows).map (fun i => (nuniqueOf rows i : ℚ))) / 6 * 100
      ∧ 0 ≤ attack_acc rows ∧ attack_acc rows ≤ 100 := by
  refine ⟨rfl, ?_, ?_⟩
  · have hmapne : (identsOf rows).map (fun i => (nuniqueOf rows i : ℚ)) ≠ [] := by
      simp [identsOf_ne_nil hne]
    have hmean : (1 : ℚ) ≤ npMean ((identsOf rows).map (fun i => (nuniqueOf rows i : ℚ))) := by
      apply le_npMean_of_forall_le hmapne
      intro x hx
      obtain ⟨i, hi, rfl⟩ := List.mem_map.mp hx
      exact_mod_cast one_le_nuniqueOf hi
    rw [attack_acc]
    linarith
  · have hmapne : (identsOf rows).map (fun i => (nuniqueOf rows i : ℚ)) ≠ [] := by
      simp [identsOf_ne_nil hne]
    have hmean : npMean ((identsOf rows).map (fun i => (nuniqueOf rows i : ℚ))) ≤ 6 := by
      apply npMean_le_of_forall_le hmapne
      intro x hx
      obtain ⟨i, hi, rfl⟩ := List.mem_map.mp hx
      exact_mod_cast nuniqueOf_le_card hlab
    rw [attack_acc]
    linarith

/-- C1 witness: the bounds instantiated on a concrete one-row prediction frame. -/
theorem attack_acc_formula_and_bounds_witness :
    ([((0 : ℤ), (1 : ℤ))] ≠ ([] : List (ℤ × ℤ)))
      ∧ (0 ≤ attack_acc [((0 : ℤ), (1 : ℤ))] ∧ attack_acc [((0 : ℤ), (1 : ℤ))] ≤ 100) :=
  ⟨by decide,
    (attack_acc_formula_and_bounds [((0 : ℤ), (1 : ℤ))] (by decide)
      (by decide)).2⟩

/-- C10: on every non-empty prediction frame the score is at least `100/6`
(each identity group is non-empty, so it contributes at least one distinct
label), hence the score is never `0`. -/
theorem attack_acc_lower_bound (rows : List (ℤ × ℤ)) (hne : rows ≠ []) :
    100 / 6 ≤ attack_acc rows ∧ attack_acc rows ≠ 0 := by
  have hmapne : (identsOf rows).map (fun i => (nuniqueOf rows i : ℚ)) ≠ [] := by
    simp [identsOf_ne_nil hne]
  have hmean : (1 : ℚ) ≤ npMean ((identsOf rows).map (fun i => (nuniqueOf rows i : ℚ))) := by
    apply le_npMean_of_forall_le hmapne
    intro x hx
    obtain ⟨i, hi, rfl⟩ := List.mem_map.mp hx
    exact_mod_cast one_le_nuniqueOf hi
  have hlow : 100 / 6 ≤ attack_acc rows := by
    rw [attack_acc]
    linarith
  have hpos : (0 : ℚ) < attack_acc rows := by
    rw [attack_acc]
    linarith
  exact ⟨hlow, ne_of_gt hpos⟩

/-- C10 witness: the lower bound instantiated on a concrete one-row frame. -/
theorem attack_acc_lower_bound_witness :
    ([((0 : ℤ), (0 : ℤ))] ≠ ([] : List (ℤ × ℤ)))
      ∧ (100 / 6 ≤ attack_acc [((0 : ℤ), (0 : ℤ))] ∧ attack_acc [((0 : ℤ), (0 : ℤ))] ≠ 0) :=
  ⟨by decide, attack_acc_lower_bound [((0 : ℤ), (0 : ℤ))] (by decide)⟩

lemma dedup_length_map_injective (f : ℤ → ℤ) (hf : Function.Injective f) (xs : List ℤ) :
    ((xs.map f).dedup).length = xs.dedup.length := by
  rw [List.dedup_map_of_injective hf, List.length_map]

lemma identsOf_relabel (rows : List (ℤ × ℤ)) (f : ℤ → ℤ) :
    identsOf (rows.map (fun r => (r.1, f r.2))) = identsOf rows := by
  simp only [identsOf, List.map_map]
  rfl

lemma groupLabels_relabel (rows : List (ℤ × ℤ)) (f : ℤ → ℤ) (i : ℤ) :
    groupLabels (rows.map (fun r => (r.1, f r.2))) i = (groupLabels rows i).map f := by
  simp only [groupLabels, List.filter_map, List.map_map]
  rfl

/-- C8: the score is invariant under any injective relabeling of the predicted
classes, because only the count of distinct labels per identity group enters. -/
theorem attack_acc_relabel_invariant (rows : List (ℤ × ℤ)) (f : ℤ → ℤ)
    (hf : Function.Injective f) :
    attack_acc (rows.map (fun r => (r.1, f r.2))) = attack_acc rows := by
  have hmap : (identsOf (rows.map (fun r => (r.1, f r.2)))).map
        (fun i => (nuniqueOf (rows.map (fun r => (r.1, f r.2))) i : ℚ))
      = (identsOf rows).map (fun i => (nuniqueOf rows i : ℚ)) := by
    rw [identsOf_relabel]
    apply List.map_congr_left
    intro i hi
    rw [nuniqueOf, nuniqueOf, groupLabels_relabel, dedup_length_map_injective f hf]
  rw [attack_acc, attack_acc, hmap]

/-- C8 witness: invariance instantiated at the shift relabeling `x + 1` on a
concrete one-row frame. -/
theorem attack_acc_relabel_invariant_witness :
    Function.Injective (fun x : ℤ => x + 1)
      ∧ attack_acc ([((0 : ℤ), (0 : ℤ))].map (fun r => (r.1, r.2 + 1)))
          = attack_acc [((0 : ℤ), (0 : ℤ))] :=
  ⟨fun a b h => by simpa using h,
    attack_acc_relabel_invariant [((0 : ℤ), (0 : ℤ))] (fun x => x + 1)
      (fun a b h => by simpa using h)⟩

/-- `pd.concat([X]*n)` (src/class_attack.py lines 38, 73, 124, 162): the table
repeated `n` times, keeping every row (and hence its index value) unchanged. -/
def replicateTable {α : Type} (tbl : List α) (n : ℕ) : List α :=
  (List.replicate n tbl).flatten

lemma replicateTable_succ {α : Type} (tbl : List α) (n : ℕ) :
    replicateTable tbl (n + 1) = tbl ++ replicateTable tbl n := by
  simp [replicateTable, List.replicate_succ]

lemma length_replicateTable {α : Type} (tbl : List α) (n : ℕ) :
    (replicateTable tbl n).length = n * tbl.length := by
  induction n with
  | zero => simp [replicateTable]
  | succ n ih =>
    rw [replicateTable_succ, List.length_append, ih]
    ring

lemma mem_replicateTable {α : Type} {tbl : List α} {n : ℕ} {r : α}
    (h : r ∈ replicateTable tbl n) : r ∈ tbl := by
  simp only [replicateTable, List.mem_flatten] at h
  obtain ⟨l, hl, hr⟩ := h
  rw [List.eq_of_mem_replicate hl] at hr
  exact hr

lemma length_filter_replicateTable {α : Type} (tbl : List α) (n : ℕ) (p : α → Bool) :
    ((replicateTable tbl n).filter p).length = n * (tbl.filter p).length := by
  induction n with
  | zero => simp [replicateTable]
  | succ n ih =>
    rw [replicateTable_succ, List.filter_append, List.length_append, ih]
    ring

lemma length_filter_eq_count_fst (tbl : List (ℤ × ℤ)) (i : ℤ) :
    (tbl.filter (fun r => r.1 == i)).length = (tbl.map Prod.fst).count i := by
  rw [List.count, List.countP_map, ← List.countP_eq_length_filter]
  rfl

lemma length_filter_eq_one_of_nodup {tbl : List (ℤ × ℤ)} {i : ℤ}
    (hnd : (tbl.map Prod.fst).Nodup) (hmem : i ∈ tbl.map Prod.fst) :
    (tbl.filter (fun r => r.1 == i)).length = 1 := by
  rw [length_filter_eq_count_fst]
  have hle : (tbl.map Prod.fst).count i ≤ 1 :=
    List.nodup_iff_count_le_one.mp hnd i
  have hge : 1 ≤ (tbl.map Prod.fst).count i := List.count_pos_iff.mpr hmem
  omega

lemma mem_identsOf_replicateTable {tbl : List (ℤ × ℤ)} {n : ℕ} (hn : n ≠ 0) (i : ℤ) :
    i ∈ identsOf (replicateTable tbl n) ↔ i ∈ tbl.map Prod.fst := by
  rw [mem_identsOf]
  constructor
  · rintro ⟨r, hr, rfl⟩
    exact List.mem_map_of_mem Prod.fst (mem_replicateTable hr)
  · intro h
    obtain ⟨r, hr, rfl⟩ := List.mem_map.mp h
    refine ⟨r, ?_, rfl⟩
    have : replicateTable tbl n = tbl ++ replicateTable tbl (n - 1) := by
      have hn' : n = (n - 1) + 1 := (Nat.succ_pred_eq_of_pos (Nat.pos_of_ne_zero hn)).symm
      rw [hn', replicateTable_succ]
      simp
    rw [this]
    exact List.mem_append_left _ hr

lemma length_identsOf_replicateTable {tbl : List (ℤ × ℤ)} {n : ℕ}
    (hnd : (tbl.map Prod.fst).Nodup) (hn : n ≠ 0) :
    (identsOf (replicateTable tbl n)).length = tbl.length := by
  have htf : ((replicateTable tbl n).map Prod.fst).toFinset = (tbl.map Prod.fst).toFinset := by
    ext a
    simp only [List.mem_toFinset]
    constructor
    · intro h
      obtain ⟨r, hr, rfl⟩ := List.mem_map.mp h
      exact List.mem_map_of_mem Prod.fst (mem_replicateTable hr)
    · intro h
      have ha : a ∈ identsOf (replicateTable tbl n) :=
        (mem_identsOf_replicateTable hn a).mpr h
      exact List.mem_dedup.mp ha
  rw [identsOf, ← List.card_toFinset, htf, List.toFinset_card_of_nodup hnd,
    List.length_map]

/-- C3: replicating a table whose identities are pairwise distinct `n ≥ 1`
times yields a batch with `n` times as many rows, every batch row is one of the
source rows (so it keeps its source identity), every identity group of the
batch has exactly `n` rows, the group keys are exactly the source identities,
and the groups cover the batch exactly (group count times `n` equals the batch
row count). -/
theorem replicateTable_partition (tbl : List (ℤ × ℤ)) (n : ℕ) (hn : 1 ≤ n)
    (hnd : (tbl.map Prod.fst).Nodup) :
    (replicateTable tbl n).length = n * tbl.length
      ∧ (∀ r ∈ replicateTable tbl n, r ∈ tbl)
      ∧ (∀ i ∈ identsOf (replicateTable tbl n),
          ((replicateTable tbl n).filter (fun r => r.1 == i)).length = n)
      ∧ (∀ i, i ∈ identsOf (replicateTable tbl n) ↔ i ∈ tbl.map Prod.fst)
      ∧ (identsOf (replicateTable tbl n)).length * n = (replicateTable tbl n).length := by
  have hn0 : n ≠ 0 := by omega
  refine ⟨length_replicateTable tbl n, fun r hr => mem_replicateTable hr, ?_, ?_, ?_⟩
  · intro i hi
    have hmem : i ∈ tbl.map Prod.fst := (mem_identsOf_replicateTable hn0 i).mp hi
    rw [length_filter_replicateTable, length_filter_eq_one_of_nodup hnd hmem]
    omega
  · exact mem_identsOf_replicateTable hn0
  · rw [length_identsOf_replicateTable hnd hn0, length_replicateTable]
    ring

/-- C3 witness: the row-count conjunct instantiated on a concrete two-row
table replicated twice. -/
theorem replicateTable_partition_witness :
    (1 ≤ 2 ∧ (([((0 : ℤ), (3 : ℤ)), ((1 : ℤ), (4 : ℤ))]).map Prod.fst).Nodup)
      ∧ (replicateTable [((0 : ℤ), (3 : ℤ)), ((1 : ℤ), (4 : ℤ))] 2).length
          = 2 * ([((0 : ℤ), (3 : ℤ)), ((1 : ℤ), (4 : ℤ))] : List (ℤ × ℤ)).length :=
  ⟨⟨by decide, by decide⟩,
    (replicateTable_partition [((0 : ℤ), (3 : ℤ)), ((1 : ℤ), (4 : ℤ))] 2
      (by decide) (by decide)).1⟩

lemma nuniqueOf_eq_one_of_nodup {rows : List (ℤ × ℤ)} {i : ℤ}
    (hnd : (rows.map Prod.fst).Nodup) (hi : i ∈ identsOf rows) :
    nuniqueOf rows i = 1 := by
  have hmem : i ∈ rows.map Prod.fst := by
    obtain ⟨r, hr, rfl⟩ := mem_identsOf.mp hi
    exact List.mem_map_of_mem Prod.fst hr
  have hflt : (rows.filter (fun r => r.1 == i)).length = 1 :=
    length_filter_eq_one_of_nodup hnd hmem
  obtain ⟨r, hr⟩ := List.length_eq_one.mp hflt
  rw [nuniqueOf, groupLabels, hr]
  simp

lemma nuniqueOf_eq_one_of_const {rows : List (ℤ × ℤ)} {c : ℤ}
    (hc : ∀ r ∈ rows, r.2 = c) {i : ℤ} (hi : i ∈ identsOf rows) :
    nuniqueOf rows i = 1 := by
  obtain ⟨r, hr, hri⟩ := mem_identsOf.mp hi
  have hrf : r ∈ rows.filter (fun r => r.1 == i) := by
    simp [List.mem_filter, hr, hri]
  have hrg : r.2 ∈ groupLabels rows i := List.mem_map_of_mem Prod.snd hrf
  have htf : (groupLabels rows i).toFinset = {c} := by
    ext a
    simp only [List.mem_toFinset, Finset.mem_singleton]
    constructor
    · intro ha
      obtain ⟨s, hs, rfl⟩ := List.mem_map.mp ha
      exact hc s (List.mem_of_mem_filter hs)
    · rintro rfl
      rwa [hc r hr] at hrg
  rw [nuniqueOf, ← List.card_toFinset, htf]
  simp

lemma npMean_const {xs : List ℚ} {c : ℚ} (hne : xs ≠ []) (h : ∀ x ∈ xs, x = c) :
    npMean xs = c := by
  have hsum : xs.sum = xs.length • c := List.sum_eq_card_nsmul xs c h
  have hlen : ((xs.length : ℚ)) ≠ 0 :=
    Nat.cast_ne_zero.mpr (List.length_pos.mpr hne).ne'
  rw [npMean, hsum, nsmul_eq_mul, mul_div_cancel_left₀ _ hlen]

lemma attack_acc_of_nodup_idents {rows : List (ℤ × ℤ)} (hne : rows ≠ [])
    (hnd : (rows.map Prod.fst).Nodup) : attack_acc rows = 100 / 6 := by
  have hmapne : (identsOf rows).map (fun i => (nuniqueOf rows i : ℚ)) ≠ [] := by
    simp [identsOf_ne_nil hne]
  have hconst : ∀ x ∈ (identsOf rows).map (fun i => (nuniqueOf rows i : ℚ)), x = 1 := by
    intro x hx
    obtain ⟨i, hi, rfl⟩ := List.mem_map.mp hx
    rw [nuniqueOf_eq_one_of_nodup hnd hi]
    norm_num
  rw [attack_acc, npMean_const hmapne hconst]
  norm_num

lemma attack_acc_of_const_label {rows : List (ℤ × ℤ)} {c : ℤ} (hne : rows ≠ [])
    (hc : ∀ r ∈ rows, r.2 = c) : attack_acc rows = 100 / 6 := by
  have hmapne : (identsOf rows).map (fun i => (nuniqueOf rows i : ℚ)) ≠ [] := by
    simp [identsOf_ne_nil hne]
  have hconst : ∀ x ∈ (identsOf rows).map (fun i => (nuniqueOf rows i : ℚ)), x = 1 := by
    intro x hx
    obtain ⟨i, hi, rfl⟩ := List.mem_map.mp hx
    rw [nuniqueOf_eq_one_of_const hc hi]
    norm_num
  rw [attack_acc, npMean_const hmapne hconst]
  norm_num

/-- Prediction frame of the C5 scenario: a 3-row sample table with identities
`0, 1, 2`, replicated `query_size = 10` times, with a predictor that returns
the constant label `5` on every row.  (The two feature columns only feed the
predictor, which ignores them, so they do not appear in the frame.) -/
def c5Rows : List (ℤ × ℤ) :=
  replicateTable [((0 : ℤ), (5 : ℤ)), ((1 : ℤ), (5 : ℤ)), ((2 : ℤ), (5 : ℤ))] 10

lemma c5Rows_ne_nil : c5Rows ≠ [] := by
  have hlen : c5Rows.length = 30 := by
    rw [c5Rows, length_replicateTable]
    rfl
  intro h
  rw [h] at hlen
  exact absurd hlen (by decide)

lemma c5Rows_const : ∀ r ∈ c5Rows, r.2 = 5 := by
  intro r hr
  have hm := mem_replicateTable hr
  simp only [List.mem_cons, List.not_mem_nil, or_false] at hm
  rcases hm with rfl | rfl | rfl <;> rfl

/-- C5 counterexample: the score of the constant-predictor scenario is not 0. -/
theorem c5_score_ne_zero : attack_acc c5Rows ≠ 0 := by
  rw [attack_acc_of_const_label c5Rows_ne_nil c5Rows_const]
  norm_num

/-- C5 amended: the score of the constant-predictor scenario equals
`100/6 = 50/3 ≈ 16.67`, because every identity group shows exactly one
distinct label, so the group mean is 1, which is divided by 6 and scaled to a
percentage. -/
theorem c5_score_value : attack_acc c5Rows = 50 / 3 := by
  rw [attack_acc_of_const_label c5Rows_ne_nil c5Rows_const]
  norm_num

/-- Prediction frame of the C6 scenario: six rows with distinct identities
`0..5`, replicate count 1, and predictor label `row index mod 6`. -/
def c6Rows : List (ℤ × ℤ) :=
  (List.range 6).map (fun i => ((i : ℤ), (i : ℤ) % 6))

lemma c6Rows_ne_nil : c6Rows ≠ [] := by
  rw [c6Rows]
  decide

lemma c6Rows_nodup : (c6Rows.map Prod.fst).Nodup := by
  rw [c6Rows]
  decide

/-- C6 counterexample: the baseline score of the distinct-label predictor is
not 100. -/
theorem c6_score_ne_hundred : attack_acc c6Rows ≠ 100 := by
  rw [attack_acc_of_nodup_idents c6Rows_ne_nil c6Rows_nodup]
  norm_num

/-- C6 amended: whenever the frame is a baseline frame (non-empty, with
pairwise-distinct identities, as produced by replicate count 1 on the sampled
users), the score equals `100/6 ≈ 16.67` for every predictor output: each
one-row group contributes exactly one distinct label, so the group mean is 1,
not 6. -/
theorem baseline_score_of_nodup (rows : List (ℤ × ℤ)) (hne : rows ≠ [])
    (hnd : (rows.map Prod.fst).Nodup) : attack_acc rows = 100 / 6 :=
  attack_acc_of_nodup_idents hne hnd

/-- C6 amended witness: the `100/6` baseline value instantiated on the
`row index mod 6` predictor frame itself. -/
theorem baseline_score_of_nodup_witness :
    (c6Rows ≠ [] ∧ (c6Rows.map Prod.fst).Nodup) ∧ attack_acc c6Rows = 100 / 6 :=
  ⟨⟨c6Rows_ne_nil, c6Rows_nodup⟩,
    baseline_score_of_nodup c6Rows c6Rows_ne_nil c6Rows_nodup⟩

/-- One report row of `attack_wb_rand_query_size` (columns `model_type`,
`query_size`, `accuracy`, `runtime`; the constant `model_type` string is
omitted). -/
structure AttackRow where
  query_size : ℕ
  accuracy : ℚ
  runtime : ℚ

/-- The query sizes swept by `attack_wb_rand_query_size`
(src/class_attack.py line 34). -/
def wbQuerySizes : List ℕ := [10, 20, 50, 100, 250, 500, 750, 1000, 2000, 5000]

/-- The loop body of `attack_wb_rand_query_size` (lines 34-53), with the wall
clock modelled as a stream of readings `clock : ℕ → ℚ` consumed in program
order and the random predictions of iteration `j` supplied as `preds j`.
Iteration `j` reads `start_time = clock k`, appends its row with the value
`end_time` still holding the elapsed time of the previous iteration (line 49
runs before line 52), and only then computes `end_time = clock (k+1) - clock k`
for the next round. -/
def wbLoop (clock : ℕ → ℚ) (preds : ℕ → List (ℤ × ℤ)) :
    List ℕ → ℕ → ℕ → ℚ → List AttackRow
  | [], _, _, _ => []
  | q :: qs, j, k, endTime =>
    { query_size := q, accuracy := attack_acc (preds j), runtime := endTime }
      :: wbLoop clock preds qs (j + 1) (k + 2) (clock (k + 1) - clock k)

/-- `attack_wb_rand_query_size` (lines 18-55): the baseline row (lines 22-31)
reads `clock 0` and `clock 1` and records its own elapsed time; the sweep loop
then starts with `end_time` still equal to the baseline's elapsed time. -/
def attack_wb_rand_query_size (clock : ℕ → ℚ) (basePred : List (ℤ × ℤ))
    (preds : ℕ → List (ℤ × ℤ)) : List AttackRow :=
  { query_size := 1, accuracy := attack_acc basePred, runtime := clock 1 - clock 0 }
    :: wbLoop clock preds wbQuerySizes 0 2 (clock 1 - clock 0)

/-- Elapsed time of the baseline attack: the difference of the first two clock
readings. -/
def baselineElapsed (clock : ℕ → ℚ) : ℚ := clock 1 - clock 0

/-- Elapsed time of sweep iteration `j`: iteration `j` consumes clock readings
`2j+2` (its `start_time`) and `2j+3` (its final `time.time()`). -/
def iterElapsed (clock : ℕ → ℚ) (j : ℕ) : ℚ := clock (2 * j + 3) - clock (2 * j + 2)

/-- C4: in the white-box query-size sweep the recorded runtimes are, in row
order, the baseline's elapsed time (baseline row), then again the baseline's
elapsed time (first query size) followed by the elapsed times of iterations
0..8 — i.e. each query-size row reports the elapsed time of the previous
iteration, never its own.  The second conjunct shows on a concrete clock that
the reported value differs from the producing iteration's own elapsed time. -/
theorem wb_runtime_lags_one_iteration :
    (∀ (clock : ℕ → ℚ) (basePred : List (ℤ × ℤ)) (preds : ℕ → List (ℤ × ℤ)),
      (attack_wb_rand_query_size clock basePred preds).map AttackRow.runtime
        = baselineElapsed clock :: baselineElapsed clock
            :: (List.range 9).map (iterElapsed clock))
      ∧ baselineElapsed (fun n : ℕ => (2 : ℚ) ^ n)
          ≠ iterElapsed (fun n : ℕ => (2 : ℚ) ^ n) 0 := by
  constructor
  · intro clock basePred preds
    rfl
  · rw [baselineElapsed, iterElapsed]
    norm_num

/-- Population variance, the square of `np.std` with its default `ddof=0`
(src/class_attack.py line 140): mean of the squared deviations from the mean. -/
def npVariance (xs : List ℚ) : ℚ := npMean (xs.map (fun x => (x - npMean xs) ^ 2))

/-- Characterization of `np.std xs`: the nonnegative real square root of the
population variance. -/
def isNpStd (s : ℝ) (xs : List ℚ) : Prop := 0 ≤ s ∧ s ^ 2 = (npVariance xs : ℝ)

/-- The `results_across_samples` list of `attack_wb_rand_feature_size`
(lines 119-134): one consistency score per trial `i < num_samples`, where
`preds f i` is the prediction frame of trial `i` for feature count `f`. -/
def featTrialScores (preds : ℕ → ℕ → List (ℤ × ℤ)) (numSamples f : ℕ) : List ℚ :=
  (List.range numSamples).map (fun i => attack_acc (preds f i))

/-- The feature counts swept by `attack_wb_rand_feature_size` (line 116). -/
def featureCounts : List ℕ := [5, 10, 50, 100, 200, 300, 400, 500]

/-- One report row of the feature-count sweep: `num_features`,
`accuracy_mean = np.mean(results_across_samples)` and the population variance
whose nonnegative square root `np.std` stores in `accuracy_std` (lines 137-142). -/
structure FeatRow where
  num_features : ℕ
  accuracy_mean : ℚ
  accuracy_var : ℚ

/-- The sweep rows of `attack_wb_rand_feature_size` (lines 116-142), one per
feature count (the baseline row of lines 103-113 is separate). -/
def attack_wb_rand_feature_size (preds : ℕ → ℕ → List (ℤ × ℤ)) (numSamples : ℕ) :
    List FeatRow :=
  featureCounts.map (fun f =>
    { num_features := f
      accuracy_mean := npMean (featTrialScores preds numSamples f)
      accuracy_var := npVariance (featTrialScores preds numSamples f) })

lemma npVariance_nonneg (xs : List ℚ) : 0 ≤ npVariance xs := by
  rw [npVariance, npMean]
  apply div_nonneg
  · apply List.sum_nonneg
    intro x hx
    obtain ⟨y, hy, rfl⟩ := List.mem_map.mp hx
    positivity
  · positivity

lemma npVariance_singleton (x : ℚ) : npVariance [x] = 0 := by
  simp [npVariance, npMean]

/-- C7: each feature-count row aggregates the `num_samples` trial scores into
their `np.mean` and the `np.std` value characterized by `isNpStd`; that
standard deviation is non-negative for every input and equals 0 whenever
`num_samples = 1`. -/
theorem feat_std_props (preds : ℕ → ℕ → List (ℤ × ℤ)) (numSamples f : ℕ) (s : ℝ)
    (hf : f ∈ featureCounts)
    (hs : isNpStd s (featTrialScores preds numSamples f)) :
    ({ num_features := f
       accuracy_mean := npMean (featTrialScores preds numSamples f)
       accuracy_var := npVariance (featTrialScores preds numSamples f) } : FeatRow)
        ∈ attack_wb_rand_feature_size preds numSamples
      ∧ 0 ≤ s ∧ (numSamples = 1 → s = 0) := by
  refine ⟨List.mem_map_of_mem _ hf, hs.1, ?_⟩
  rintro rfl
  have h1 : featTrialScores preds 1 f = [attack_acc (preds f 0)] := rfl
  have h2 : s ^ 2 = 0 := by
    rw [hs.2, h1, npVariance_singleton]
    norm_num
  exact (pow_eq_zero_iff (two_ne_zero)).mp h2

lemma feat_std_witness_aux :
    isNpStd 0 (featTrialScores (fun _ _ => [((0 : ℤ), (0 : ℤ))]) 1 5) := by
  constructor
  · exact le_refl 0
  · have h1 : featTrialScores (fun _ _ => [((0 : ℤ), (0 : ℤ))]) 1 5
        = [attack_acc [((0 : ℤ), (0 : ℤ))]] := rfl
    rw [h1, npVariance_singleton]
    norm_num

/-- C7 witness: the aggregation properties instantiated at a single-trial
sweep (`num_samples = 1`) with a constant one-row prediction frame, where the
standard deviation is 0. -/
theorem feat_std_props_witness :
    (5 ∈ featureCounts
        ∧ isNpStd 0 (featTrialScores (fun _ _ => [((0 : ℤ), (0 : ℤ))]) 1 5))
      ∧ (({ num_features := 5
            accuracy_mean := npMean (featTrialScores (fun _ _ => [((0 : ℤ), (0 : ℤ))]) 1 5)
            accuracy_var := npVariance (featTrialScores (fun _ _ => [((0 : ℤ), (0 : ℤ))]) 1 5) }
              : FeatRow)
            ∈ attack_wb_rand_feature_size (fun _ _ => [((0 : ℤ), (0 : ℤ))]) 1
          ∧ (0 : ℝ) ≤ 0 ∧ (1 = 1 → (0 : ℝ) = 0)) :=
  ⟨⟨by decide, feat_std_witness_aux⟩,
    feat_std_props (fun _ _ => [((0 : ℤ), (0 : ℤ))]) 1 5 0 (by decide)
      feat_std_witness_aux⟩

/-- The column labels of the augmented black-box query frame
(src/class_attack.py lines 69 and 158):
`X_cols + list(range(X_cols[-1]+1, X_cols[-1]+num_extra_feat+1))`. -/
def bbAugmentCols (xCols : List ℤ) (numExtra : ℕ) : List ℤ :=
  xCols ++ (List.range numExtra).map (fun k => xCols.getLastD 0 + 1 + (k : ℤ))

/-- The columns of the matrix handed to the predictor in
`attack_bb_rand_query_size` (lines 77-80): the `dnn` branch passes
`X_augment.values`, i.e. every augmented column; the `rf`/`lr` branch passes
`X_augment[X_cols]`, i.e. exactly the original columns. -/
def bb_rand_query_predictor_cols (model_type : String) (xCols : List ℤ)
    (numExtra : ℕ) : List ℤ :=
  if model_type = "dnn" then bbAugmentCols xCols numExtra else xCols

/-- The columns of the matrix handed to the predictor in
`attack_bb_query_extra` (lines 166-169); the branch structure is identical to
`attack_bb_rand_query_size`. -/
def bb_query_extra_predictor_cols (model_type : String) (xCols : List ℤ)
    (numExtra : ℕ) : List ℤ :=
  if model_type = "dnn" then bbAugmentCols xCols numExtra else xCols

/-- C2 evaluation at the failing input: with `model_type = "dnn"`, original
columns `[0, 1]` and one extra feature, both black-box sweeps hand the
predictor the full augmented column set `[0, 1, 2]` rather than the original
`[0, 1]`; the `rf` and `lr` branches do restrict to the original columns. -/
theorem bb_dnn_predictor_gets_extra_cols :
    bb_rand_query_predictor_cols "dnn" [0, 1] 1 = [0, 1, 2]
      ∧ bb_rand_query_predictor_cols "dnn" [0, 1] 1 ≠ [0, 1]
      ∧ bb_query_extra_predictor_cols "dnn" [0, 1] 1 ≠ [0, 1]
      ∧ bb_rand_query_predictor_cols "rf" [0, 1] 1 = [0, 1]
      ∧ bb_rand_query_predictor_cols "lr" [0, 1] 1 = [0, 1]
      ∧ bb_query_extra_predictor_cols "rf" [0, 1] 1 = [0, 1]
      ∧ bb_query_extra_predictor_cols "lr" [0, 1] 1 = [0, 1] := by
  refine ⟨?_, ?_, ?_, ?_, ?_, ?_, ?_⟩ <;> decide

/-- The per-dataset results directory of the claim:
`./results/{data_name}/`. -/
def resultsDir (data_name : String) : String := "./results/" ++ data_name ++ "/"

/-- Output path of the white-box query-size sweep report, written in `main`
(lines 215-220): `'./results/{}/attack_rand_query.csv'.format(args.data_name)`. -/
def wb_rand_query_out_path (data_name : String) : String :=
  "./results/" ++ data_name ++ "/attack_rand_query.csv"

/-- Output path of the feature-count sweep report, written in `main`
(lines 233-238): `'./results/{}/attack_rand_feat.csv'.format(args.data_name)`. -/
def wb_rand_feat_out_path (data_name : String) : String :=
  "./results/" ++ data_name ++ "/attack_rand_feat.csv"

/-- Output path of the black-box query-size sweep report (line 93): the format
argument is the string literal `'UCI_HAR'`; `data_name` is not in scope inside
the sweep function. -/
def bb_rand_query_out_path : String :=
  "./results/" ++ "UCI_HAR" ++ "/attack_rand_query_bb.csv"

/-- Output path of the black-box extra-feature sweep report (line 180), again
with the literal `'UCI_HAR'`. -/
def bb_query_extra_out_path : String :=
  "./results/" ++ "UCI_HAR" ++ "/attack_bb_unused_feat.csv"

/-- How each report file is written. -/
inductive WriteMode
  | appendIfExists
  | overwrite

/-- `main` lines 215-220: read the existing CSV if present, append, rewrite. -/
def wb_rand_query_write_mode : WriteMode := WriteMode.appendIfExists

/-- `main` lines 233-238: read the existing CSV if present, append, rewrite. -/
def wb_rand_feat_write_mode : WriteMode := WriteMode.appendIfExists

/-- Line 93: `df_out.to_csv(...)` replaces the file on every outer iteration;
the append block in `main` (lines 224-229) is commented out. -/
def bb_rand_query_write_mode : WriteMode := WriteMode.overwrite

/-- Line 180: `df_out.to_csv(...)` replaces the file on every configuration. -/
def bb_query_extra_write_mode : WriteMode := WriteMode.overwrite

/-- C9 counterexample: for `data_name = "foo"` the two black-box sweep reports
are not written under `./results/foo/`; their paths point into the hardcoded
`UCI_HAR` results directory. -/
theorem bb_paths_ignore_data_name :
    bb_rand_query_out_path ≠ resultsDir "foo" ++ "attack_rand_query_bb.csv"
      ∧ bb_query_extra_out_path ≠ resultsDir "foo" ++ "attack_bb_unused_feat.csv" := by
  constructor <;> decide

/-- C9 amended: the two white-box sweep reports go to the per-dataset results
directory of `-data_name` and append to an existing file; the two black-box
sweep reports always go to the `UCI_HAR` results directory (whatever
`-data_name` says) and overwrite, the bb query-size append logic in `main`
being explicitly disabled. -/
theorem sweep_output_paths (data_name : String) :
    wb_rand_query_out_path data_name = resultsDir data_name ++ "attack_rand_query.csv"
      ∧ wb_rand_feat_out_path data_name = resultsDir data_name ++ "attack_rand_feat.csv"
      ∧ bb_rand_query_out_path = resultsDir "UCI_HAR" ++ "attack_rand_query_bb.csv"
      ∧ bb_query_extra_out_path = resultsDir "UCI_HAR" ++ "attack_bb_unused_feat.csv"
      ∧ wb_rand_query_write_mode = WriteMode.appendIfExists
      ∧ wb_rand_feat_write_mode = WriteMode.appendIfExists
      ∧ bb_rand_query_write_mode = WriteMode.overwrite
      ∧ bb_query_extra_write_mode = WriteMode.overwrite := by
  refine ⟨?_, ?_, by decide, by decide, rfl, rfl, rfl, rfl⟩ <;>
    simp [wb_rand_query_out_path, wb_rand_feat_out_path, resultsDir, String.append_assoc]

end ClassAttack
